import Mathlib

/-!
Verification of `analyze_indentation.py`: a diagnostic script that strips
terminal control sequences from captured output, locates lines containing
fixed recognition tokens, measures their leading spaces, and reports whether
indentation grows cumulatively across consecutive continuation lines.

Text is modelled as `List Char`.  Each definition is a direct translation of
the corresponding Python code; fuel is used only to make the sanitizer
structurally recursive (a lemma shows any fuel `≥` length gives the same
result).
-/

namespace AnalyzeIndentation

/-- The escape character `0x1b`, spelled `\x1b` in the Python regex. -/
def esc : Char := Char.ofNat 27

/-- The character class `[0-9;]` of the Python regex `\x1b\[[0-9;]*[a-zA-Z]`. -/
def isDigitSemi (c : Char) : Bool := c.isDigit || c == ';'

/--
Greedy tail of the regex `\x1b\[[0-9;]*[a-zA-Z]` after `\x1b[` has been
consumed: eat digits/semicolons, then require one ASCII letter.  Returns the
remainder of the input after the match, or `none` if there is no match.
Deterministic because `[0-9;]` and `[a-zA-Z]` are disjoint, so the greedy
parameter run never needs backtracking.
-/
def matchTail : List Char → Option (List Char)
  | [] => none
  | c :: rest =>
    if isDigitSemi c then matchTail rest
    else if c.isAlpha then some rest else none

/--
Attempt to match the whole regex `\x1b\[[0-9;]*[a-zA-Z]` at the start of the
input; on success return the remainder of the input after the match.
-/
def matchEsc : List Char → Option (List Char)
  | e :: b :: rest => if e == esc && b == '[' then matchTail rest else none
  | _ => none

/--
`re.sub(ansi_escape, '', output)` scanning left to right: at each position,
remove the leftmost match and continue after it, otherwise keep the character
and advance.  `fuel` only bounds recursion depth; `sanitizeF_eq_of_le` shows
any fuel `≥` the input length gives the same result.
-/
def sanitizeF : Nat → List Char → List Char
  | 0, l => l
  | _ + 1, [] => []
  | fuel + 1, c :: rest =>
    match matchEsc (c :: rest) with
    | some r => sanitizeF fuel r
    | none => c :: sanitizeF fuel rest

/-- `clean_output = ansi_escape.sub('', output)` from the source. -/
def sanitize (l : List Char) : List Char := sanitizeF l.length l

/-- `clean_output.split('\n')` — Python `str.split` on a single newline:
`"".split('\n') = [""]`, and a trailing newline yields a trailing `""`. -/
def splitNl : List Char → List (List Char)
  | [] => [[]]
  | c :: rest =>
    if c == '\n' then [] :: splitNl rest
    else
      match splitNl rest with
      | [] => [[c]]
      | l :: ls => (c :: l) :: ls

/-- The 29 code points CPython's `str.isspace()` accepts, which is exactly
the set `str.strip()` removes: ASCII `\\t \\n \\x0b \\x0c \\r`, space, the
separator controls `\\x1c`-`\\x1f`, next-line `\\x85`, no-break space `\\xa0`,
Ogham space mark `\\u1680`, the fixed-width spaces `\\u2000`-`\\u200a`, the
line and paragraph separators `\\u2028`/`\\u2029`, narrow no-break space
`\\u202f`, medium mathematical space `\\u205f` and ideographic space
`\\u3000`. -/
def pySpaceChars : List Char :=
  ['\t', '\n', '\x0b', '\x0c', '\r', '\x1c', '\x1d', '\x1e', '\x1f', ' ',
   '\x85', '\xa0', '\u1680', '\u2000', '\u2001', '\u2002', '\u2003',
   '\u2004', '\u2005', '\u2006', '\u2007', '\u2008', '\u2009', '\u200a',
   '\u2028', '\u2029', '\u202f', '\u205f', '\u3000']

/-- Whitespace as Python `str.strip()` sees it: `str.isspace()` membership. -/
def isPySpace (c : Char) : Bool := pySpaceChars.contains c

/-- Python `line.strip()`: drop whitespace from both ends. -/
def pyStrip (l : List Char) : List Char :=
  ((l.dropWhile isPySpace).reverse.dropWhile isPySpace).reverse

/-- Python `line.lstrip(' ')`: drop leading space characters only. -/
def lstripSpace (l : List Char) : List Char := l.dropWhile (· == ' ')

/-- `leading_spaces = len(line) - len(line.lstrip(' '))` from the source. -/
def leadingSpaces (l : List Char) : Nat := l.length - (lstripSpace l).length

/-- Does `t` occur at the start of `l`?  (Helper for Python `in`.) -/
def startsWith : List Char → List Char → Bool
  | [], _ => true
  | _ :: _, [] => false
  | a :: t, b :: l => a == b && startsWith t l

/-- Python substring containment `t in l` (case-sensitive, contiguous). -/
def isSubstring (t : List Char) : List Char → Bool
  | [] => startsWith t []
  | c :: rest => startsWith t (c :: rest) || isSubstring t rest

/-- The fixed recognition token set `['aaaa', 'bbbb', 'cccc', 'dddd']`. -/
def tokens : List (List Char) :=
  ["aaaa".data, "bbbb".data, "cccc".data, "dddd".data]

/-- `any(content in line for content in ['aaaa','bbbb','cccc','dddd'])`. -/
def matchesToken (line : List Char) : Bool :=
  tokens.any (fun t => isSubstring t line)

/-- One entry of `test_lines`: `{'line_num': i+1, 'content': line.strip(),
'leading_spaces': ..., 'raw_line': repr(line)}`.  `repr` is display-only
formatting, so `raw_line` stores the underlying line itself. -/
structure MatchRecord where
  line_num : Nat
  content : List Char
  leading_spaces : Nat
  raw_line : List Char
deriving DecidableEq, Repr

/-- Build the record the source appends for line `line` at 1-based number `n`. -/
def mkRecord (n : Nat) (line : List Char) : MatchRecord :=
  ⟨n, pyStrip line, leadingSpaces line, line⟩

/-- The `for i, line in enumerate(lines)` loop collecting `test_lines`,
started at 0-based index `i`. -/
def locate (i : Nat) : List (List Char) → List MatchRecord
  | [] => []
  | line :: rest =>
    if matchesToken line then mkRecord (i + 1) line :: locate (i + 1) rest
    else locate (i + 1) rest

/-- `test_lines` computed from the cleaned lines. -/
def testLines (ls : List (List Char)) : List MatchRecord := locate 0 ls

/-- `continuation_lines = [tl for tl in test_lines if not '✦' in tl['content']]`. -/
def continuationOf (ts : List MatchRecord) : List MatchRecord :=
  ts.filter (fun tl => !(isSubstring ['✦'] tl.content))

/-- Per-record outcome of the judge's `if`/`elif`/`else` chain (which of the
three prints fires for a record). -/
inductive Classification where
  | growth
  | inconsistent
  | consistent
deriving DecidableEq, Repr

/-- The body of the judge's loop for records at index `i > 0`: `prev` is
`continuation_lines[i-1]`.  Returns the classifications from this point on
and whether `cumulative_problem` was set anywhere in them. -/
def judgeStep (expected : Nat) (prev : MatchRecord) :
    List MatchRecord → List Classification × Bool
  | [] => ([], false)
  | tl :: rest =>
    let s := judgeStep expected tl rest
    if tl.leading_spaces > prev.leading_spaces then (.growth :: s.1, true)
    else if tl.leading_spaces ≠ expected then (.inconsistent :: s.1, s.2)
    else (.consistent :: s.1, s.2)

/-- The judge's loop over all of `continuation_lines` (the `i = 0` record
skips the growth branch because of the `i > 0` guard, then runs the same
`elif`/`else`), with `expected = continuation_lines[0]['leading_spaces']`. -/
def judge : List MatchRecord → List Classification × Bool
  | [] => ([], false)
  | first :: rest =>
    let expected := first.leading_spaces
    let c0 : Classification :=
      if first.leading_spaces ≠ expected then .inconsistent else .consistent
    let s := judgeStep expected first rest
    (c0 :: s.1, s.2)

/-- `analyze_terminal_output` from the source (prints omitted: they do not
feed back into the result). -/
def analyze_terminal_output (output : List Char) : Bool :=
  let clean_output := sanitize output
  let lines := splitNl clean_output
  let test_lines := testLines lines
  if test_lines.isEmpty then false
  else
    let continuation_lines := continuationOf test_lines
    if 2 ≤ continuation_lines.length then (judge continuation_lines).2
    else false

/-- The ContinuationSet an input gives rise to. -/
def continuationSet (output : List Char) : List MatchRecord :=
  continuationOf (testLines (splitNl (sanitize output)))

/-- The `__main__` block: `sys.exit(1 if has_problem else 0)`. -/
def mainExit (output : List Char) : Nat :=
  if analyze_terminal_output output then 1 else 0

/-- Does some adjacent pair of the list strictly increase? -/
def hasAdjIncrease : List Nat → Bool
  | a :: b :: rest => decide (a < b) || hasAdjIncrease (b :: rest)
  | _ => false

/-- Does the text still contain a substring the control-sequence regex would
match (a match starting at some position)? -/
def hasCtrlMatch : List Char → Bool
  | [] => false
  | c :: rest => (matchEsc (c :: rest)).isSome || hasCtrlMatch rest

/-- The strings matched by the regex `\x1b\[[0-9;]*[a-zA-Z]`: the escape
character, `'['`, zero or more digits/semicolons, then one ASCII letter. -/
def IsCtrlSeq (m : List Char) : Prop :=
  ∃ params c, m = esc :: '[' :: (params ++ [c]) ∧
    (∀ x ∈ params, isDigitSemi x = true) ∧ c.isAlpha = true

/-- The full text a decomposition into (kept, removed) pieces spells out. -/
def pieces (ps : List (List Char × List Char)) : List Char :=
  (ps.map (fun p => p.1 ++ p.2)).flatten

/-- Completeness of a decomposition with respect to the left-to-right scan:
no control-sequence match begins at any kept character.  `s₂` ranges over
the nonempty suffixes of a kept segment, i.e. over the scan positions at
which a character was kept instead of starting a removed match, and it is
followed by the entire remaining input.  This rules out decompositions that
keep a matching substring (e.g. the identity decomposition, or one that
stops removing after the first match). -/
def ScanFaithful : List (List Char × List Char) → Prop
  | [] => True
  | (k, m) :: rest =>
    (∀ s₁ s₂, k = s₁ ++ s₂ → s₂ ≠ [] → matchEsc (s₂ ++ m ++ pieces rest) = none) ∧
    ScanFaithful rest

/-- Input whose ContinuationSet leading-space sequence is `[4, 6, 8]`. -/
def seqInput468 : List Char := "    aaaa\n      bbbb\n        cccc".data

/-- Input whose ContinuationSet leading-space sequence is `[4, 4, 4]`. -/
def seqInput444 : List Char := "    aaaa\n    bbbb\n    cccc".data

/-- Input whose ContinuationSet leading-space sequence is `[4, 6, 4]`. -/
def seqInput464 : List Char := "    aaaa\n      bbbb\n    cccc".data

/-- Input whose ContinuationSet leading-space sequence is `[4, 2, 4]`. -/
def seqInput424 : List Char := "    aaaa\n  bbbb\n    cccc".data

/-- The end-to-end scenario input: an ANSI-wrapped `✦ header` line followed
by token lines indented 4, 6 and 8 spaces. -/
def endToEndInput : List Char :=
  "\x1b[32m✦ header\x1b[0m\n    aaaa first\n      bbbb second\n        cccc third".data

/-- An input with a single matching line (insufficient data). -/
def singleLineInput : List Char := "        aaaa only".data

/-- First record of the C3 witness ContinuationSet (leading spaces 4). -/
def c3recA : MatchRecord := ⟨1, "aaaa".data, 4, "    aaaa".data⟩

/-- Second record of the C3 witness ContinuationSet (leading spaces 6). -/
def c3recB : MatchRecord := ⟨2, "bbbb".data, 6, "      bbbb".data⟩

/-- Input containing a line `  aaaa ✦ more` that matches the token `aaaa`
but also contains the marker glyph. -/
def markerTokenInput : List Char :=
  "  aaaa ✦ more\n    aaaa one\n    bbbb two".data

/-- Input whose marker-glyph line is indented 8 spaces between two 4-space
token lines: only its exclusion keeps the verdict clean. -/
def markerGrowthInput : List Char :=
  "    aaaa one\n        aaaa ✦ more\n    bbbb two".data

/-- C10 witness input: marker line plus `aaaa`/`bbbb` lines at 4 and 6. -/
def c10InputA : List Char := "cccc ✦ marker\n    aaaa one\n      bbbb two".data

/-- C10 witness input: different contents, line numbers and no marker line,
but the same leading-space sequence `[4, 6]` as `c10InputA`. -/
def c10InputB : List Char := "\n\n    dddd X\n\n      dddd Y".data

/-- Input on which a single sanitizer pass splices a new control sequence:
`\x1b[` ++ `\x1b[0m` ++ `0m`. -/
def splicedInput : List Char := ['\x1b', '[', '\x1b', '[', '0', 'm', '0', 'm']

theorem matchTail_length : ∀ l r, matchTail l = some r → r.length < l.length := by
  intro l
  induction l with
  | nil => intro r h; simp [matchTail] at h
  | cons c rest ih =>
    intro r h
    simp only [matchTail] at h
    by_cases hd : isDigitSemi c = true
    · simp [hd] at h
      exact Nat.lt_trans (ih r h) (Nat.lt_succ_self _)
    · simp [hd] at h
      by_cases ha : c.isAlpha = true
      · simp [ha] at h
        subst h
        exact Nat.lt_succ_self _
      · simp [ha] at h

theorem matchEsc_length : ∀ l r, matchEsc l = some r → r.length < l.length := by
  intro l r h
  match l with
  | [] => simp [matchEsc] at h
  | [e] => simp [matchEsc] at h
  | e :: b :: rest =>
    simp only [matchEsc] at h
    by_cases hg : (e == esc && b == '[') = true
    · simp [hg] at h
      have := matchTail_length rest r h
      simp only [List.length_cons]
      omega
    · simp [hg] at h

theorem sanitizeF_eq_of_le :
    ∀ fuel₁ fuel₂ l, l.length ≤ fuel₁ → l.length ≤ fuel₂ →
      sanitizeF fuel₁ l = sanitizeF fuel₂ l := by
  intro fuel₁
  induction fuel₁ using Nat.strong_induction_on with
  | _ fuel₁ ih =>
    intro fuel₂ l h₁ h₂
    match fuel₁, fuel₂, l with
    | 0, 0, l => rfl
    | 0, f₂ + 1, l =>
      have : l = [] := List.length_eq_zero.mp (Nat.le_zero.mp h₁)
      subst this; rfl
    | f₁ + 1, 0, l =>
      have : l = [] := List.length_eq_zero.mp (Nat.le_zero.mp h₂)
      subst this; rfl
    | f₁ + 1, f₂ + 1, [] => rfl
    | f₁ + 1, f₂ + 1, c :: rest =>
      simp only [sanitizeF]
      match hm : matchEsc (c :: rest) with
      | some r =>
        have hr := matchEsc_length _ _ hm
        simp only [List.length_cons] at h₁ h₂ hr
        exact ih f₁ (Nat.lt_succ_self _) f₂ r (by omega) (by omega)
      | none =>
        simp only [List.length_cons] at h₁ h₂
        have := ih f₁ (Nat.lt_succ_self _) f₂ rest (by omega) (by omega)
        rw [this]

theorem sanitize_nil : sanitize [] = [] := rfl

theorem sanitize_cons_match {c : Char} {rest r : List Char}
    (h : matchEsc (c :: rest) = some r) :
    sanitize (c :: rest) = sanitize r := by
  have hr := matchEsc_length _ _ h
  simp only [List.length_cons] at hr
  simp only [sanitize, List.length_cons, sanitizeF, h]
  exact sanitizeF_eq_of_le _ _ r (by omega) (Nat.le_refl _)

theorem sanitize_cons_nomatch {c : Char} {rest : List Char}
    (h : matchEsc (c :: rest) = none) :
    sanitize (c :: rest) = c :: sanitize rest := by
  simp only [sanitize, List.length_cons, sanitizeF, h]

theorem judgeStep_snd (expected : Nat) :
    ∀ (l : List MatchRecord) (prev : MatchRecord),
      (judgeStep expected prev l).2 =
        hasAdjIncrease (prev.leading_spaces :: l.map MatchRecord.leading_spaces) := by
  intro l
  induction l with
  | nil => intro prev; rfl
  | cons tl rest ih =>
    intro prev
    simp only [judgeStep, List.map_cons, hasAdjIncrease]
    by_cases hgt : prev.leading_spaces < tl.leading_spaces
    · simp [hgt, ih tl]
    · by_cases hne : tl.leading_spaces ≠ expected
      · simp [Nat.lt_iff_add_one_le] at hgt
        simp only [gt_iff_lt]
        rw [if_neg (by omega), if_pos hne]
        simp only [ih tl]
        have : decide (prev.leading_spaces < tl.leading_spaces) = false := by
          simp; omega
        rw [this, Bool.false_or]
      · simp [Nat.lt_iff_add_one_le] at hgt
        simp only [gt_iff_lt]
        rw [if_neg (by omega), if_neg hne]
        simp only [ih tl]
        have : decide (prev.leading_spaces < tl.leading_spaces) = false := by
          simp; omega
        rw [this, Bool.false_or]

theorem judge_snd (cls : List MatchRecord) :
    (judge cls).2 = hasAdjIncrease (cls.map MatchRecord.leading_spaces) := by
  match cls with
  | [] => rfl
  | first :: rest =>
    simp only [judge, List.map_cons]
    exact judgeStep_snd _ rest first

theorem hasAdjIncrease_short {l : List Nat} (h : l.length < 2) :
    hasAdjIncrease l = false := by
  match l with
  | [] => rfl
  | [_] => rfl
  | _ :: _ :: _ => simp only [List.length_cons] at h; omega

/-- The verdict is exactly "some adjacent pair of continuation leading-space
counts strictly increases"; all three early-return paths of the source
coincide with this on their cases. -/
theorem analyze_eq_hasAdjIncrease (output : List Char) :
    analyze_terminal_output output =
      hasAdjIncrease ((continuationSet output).map MatchRecord.leading_spaces) := by
  simp only [analyze_terminal_output, continuationSet]
  by_cases hempty : (testLines (splitNl (sanitize output))).isEmpty = true
  · rw [if_pos hempty]
    have : testLines (splitNl (sanitize output)) = [] := by
      simpa [List.isEmpty_iff] using hempty
    rw [this]
    rfl
  · rw [if_neg hempty]
    by_cases hlen : 2 ≤ (continuationOf (testLines (splitNl (sanitize output)))).length
    · rw [if_pos hlen]
      exact judge_snd _
    · rw [if_neg hlen]
      rw [hasAdjIncrease_short]
      simp only [List.length_map]
      omega

theorem hasAdjIncrease_iff_get (l : List Nat) :
    hasAdjIncrease l = true ↔ ∃ i a b, l[i]? = some a ∧ l[i + 1]? = some b ∧ a < b := by
  induction l with
  | nil =>
    simp only [hasAdjIncrease, List.getElem?_nil]
    simp
  | cons a rest ih =>
    match rest with
    | [] =>
      simp only [hasAdjIncrease]
      constructor
      · intro h; exact absurd h (by simp)
      · rintro ⟨i, x, y, hx, hy, hxy⟩
        match i with
        | 0 => simp at hy
        | i + 1 => simp at hy
    | b :: rest' =>
      simp only [hasAdjIncrease, Bool.or_eq_true, decide_eq_true_eq]
      rw [ih]
      constructor
      · rintro (hab | ⟨i, x, y, hx, hy, hxy⟩)
        · exact ⟨0, a, b, by simp, by simp, hab⟩
        · exact ⟨i + 1, x, y, by simpa using hx, by simpa using hy, hxy⟩
      · rintro ⟨i, x, y, hx, hy, hxy⟩
        match i with
        | 0 =>
          simp only [List.getElem?_cons_zero, Option.some.injEq] at hx
          simp only [List.getElem?_cons_succ, List.getElem?_cons_zero,
            Option.some.injEq] at hy
          left; omega
        | i + 1 =>
          right
          exact ⟨i, x, y, by simpa using hx, by simpa using hy, hxy⟩

/-- The classification at relative position `i` of the judge's loop is the
`if`/`elif`/`else` chain evaluated with predecessor `(prev :: rest)[i]`. -/
theorem judgeStep_classes_get (expected : Nat) :
    ∀ (rest : List MatchRecord) (prev : MatchRecord) (i : Nat) (cur : MatchRecord),
      rest[i]? = some cur →
      ∃ pr, (prev :: rest)[i]? = some pr ∧
        (judgeStep expected prev rest).1[i]? =
          some (if pr.leading_spaces < cur.leading_spaces then Classification.growth
            else if cur.leading_spaces ≠ expected then Classification.inconsistent
            else Classification.consistent) := by
  intro rest
  induction rest with
  | nil => intro prev i cur h; simp at h
  | cons tl rest' ih =>
    intro prev i cur h
    match i with
    | 0 =>
      simp only [List.getElem?_cons_zero, Option.some.injEq] at h
      refine ⟨prev, by simp, ?_⟩
      rw [← h]
      simp only [judgeStep, gt_iff_lt]
      by_cases hgt : prev.leading_spaces < tl.leading_spaces
      · rw [if_pos hgt]
        simp [hgt]
      · rw [if_neg hgt]
        by_cases hne : tl.leading_spaces ≠ expected
        · rw [if_pos hne]
          simp [hgt, hne]
        · rw [if_neg hne]
          simp [hgt, hne]
    | i + 1 =>
      simp only [List.getElem?_cons_succ] at h
      obtain ⟨pr, hpr, hcls⟩ := ih tl i cur h
      refine ⟨pr, by simpa using hpr, ?_⟩
      simp only [judgeStep, gt_iff_lt]
      by_cases hgt : prev.leading_spaces < tl.leading_spaces
      · rw [if_pos hgt]; simpa using hcls
      · rw [if_neg hgt]
        by_cases hne : tl.leading_spaces ≠ expected
        · rw [if_pos hne]; simpa using hcls
        · rw [if_neg hne]; simpa using hcls

theorem locate_line_num_gt :
    ∀ (ls : List (List Char)) (i : Nat) (r : MatchRecord),
      r ∈ locate i ls → i < r.line_num := by
  intro ls
  induction ls with
  | nil => intro i r h; simp [locate] at h
  | cons line rest ih =>
    intro i r h
    simp only [locate] at h
    by_cases hm : matchesToken line = true
    · rw [if_pos hm] at h
      rcases List.mem_cons.mp h with h | h
      · subst h; simp [mkRecord]
      · exact Nat.lt_of_succ_lt (ih (i + 1) r h)
    · rw [if_neg hm] at h
      exact Nat.lt_of_succ_lt (ih (i + 1) r h)

theorem locate_pairwise :
    ∀ (ls : List (List Char)) (i : Nat),
      List.Pairwise (fun a b => a.line_num < b.line_num) (locate i ls) := by
  intro ls
  induction ls with
  | nil => intro i; simp [locate]
  | cons line rest ih =>
    intro i
    simp only [locate]
    by_cases hm : matchesToken line = true
    · rw [if_pos hm]
      refine List.pairwise_cons.mpr ⟨?_, ih (i + 1)⟩
      intro b hb
      have := locate_line_num_gt rest (i + 1) b hb
      simp only [mkRecord]
      omega
    · rw [if_neg hm]
      exact ih (i + 1)

/-- Every record `locate` produces is `mkRecord` of the line at its recorded
(1-based) line number, and that line matches a token. -/
theorem locate_get :
    ∀ (ls : List (List Char)) (i : Nat) (r : MatchRecord),
      r ∈ locate i ls →
      ∃ line, ls[r.line_num - i - 1]? = some line ∧
        matchesToken line = true ∧ r = mkRecord r.line_num line := by
  intro ls
  induction ls with
  | nil => intro i r h; simp [locate] at h
  | cons line rest ih =>
    intro i r h
    simp only [locate] at h
    by_cases hm : matchesToken line = true
    · rw [if_pos hm] at h
      rcases List.mem_cons.mp h with h | h
      · subst h
        refine ⟨line, ?_, hm, rfl⟩
        simp [mkRecord]
      · obtain ⟨l', hl', hml', hr'⟩ := ih (i + 1) r h
        have hgt := locate_line_num_gt rest (i + 1) r h
        refine ⟨l', ?_, hml', hr'⟩
        have hidx : r.line_num - i - 1 = (r.line_num - (i + 1) - 1) + 1 := by omega
        rw [hidx, List.getElem?_cons_succ]
        exact hl'
    · rw [if_neg hm] at h
      obtain ⟨l', hl', hml', hr'⟩ := ih (i + 1) r h
      have hgt := locate_line_num_gt rest (i + 1) r h
      refine ⟨l', ?_, hml', hr'⟩
      have hidx : r.line_num - i - 1 = (r.line_num - (i + 1) - 1) + 1 := by omega
      rw [hidx, List.getElem?_cons_succ]
      exact hl'

theorem startsWith_iff :
    ∀ t l : List Char, startsWith t l = true ↔ ∃ post, l = t ++ post := by
  intro t
  induction t with
  | nil => intro l; simp [startsWith]
  | cons a t' ih =>
    intro l
    match l with
    | [] =>
      simp only [startsWith]
      constructor
      · intro h; exact absurd h (by simp)
      · rintro ⟨post, hpost⟩; simp at hpost
    | b :: l' =>
      simp only [startsWith, Bool.and_eq_true, beq_iff_eq]
      rw [ih]
      constructor
      · rintro ⟨rfl, post, rfl⟩
        exact ⟨post, rfl⟩
      · rintro ⟨post, hpost⟩
        simp only [List.cons_append, List.cons.injEq] at hpost
        exact ⟨hpost.1.symm, post, hpost.2⟩

theorem isSubstring_iff :
    ∀ t l : List Char, isSubstring t l = true ↔ ∃ pre post, l = pre ++ t ++ post := by
  intro t l
  induction l with
  | nil =>
    simp only [isSubstring]
    rw [startsWith_iff]
    constructor
    · rintro ⟨post, hpost⟩
      exact ⟨[], post, by simpa using hpost⟩
    · rintro ⟨pre, post, hpost⟩
      have : pre = [] ∧ t ++ post = [] := by
        have := hpost.symm
        rw [List.append_assoc] at this
        exact List.append_eq_nil.mp this
      exact ⟨post, by rw [this.2]⟩
  | cons c rest ih =>
    simp only [isSubstring, Bool.or_eq_true]
    rw [startsWith_iff, ih]
    constructor
    · rintro (⟨post, hpost⟩ | ⟨pre, post, hpost⟩)
      · exact ⟨[], post, by simpa using hpost⟩
      · exact ⟨c :: pre, post, by simp [hpost]⟩
    · rintro ⟨pre, post, hpost⟩
      match pre with
      | [] =>
        left
        exact ⟨post, by simpa using hpost⟩
      | d :: pre' =>
        right
        simp only [List.cons_append, List.cons.injEq] at hpost
        exact ⟨pre', post, hpost.2⟩

theorem matchesToken_iff (line : List Char) :
    matchesToken line = true ↔
      ∃ t ∈ tokens, ∃ pre post, line = pre ++ t ++ post := by
  simp only [matchesToken, List.any_eq_true]
  constructor
  · rintro ⟨t, ht, hsub⟩
    exact ⟨t, ht, (isSubstring_iff t line).mp hsub⟩
  · rintro ⟨t, ht, h⟩
    exact ⟨t, ht, (isSubstring_iff t line).mpr h⟩

theorem matchTail_decomp :
    ∀ l r, matchTail l = some r →
      ∃ params c, l = params ++ c :: r ∧
        (∀ x ∈ params, isDigitSemi x = true) ∧ c.isAlpha = true := by
  intro l
  induction l with
  | nil => intro r h; simp [matchTail] at h
  | cons c rest ih =>
    intro r h
    simp only [matchTail] at h
    by_cases hd : isDigitSemi c = true
    · rw [if_pos hd] at h
      obtain ⟨params, d, hrest, hparams, hd'⟩ := ih r h
      refine ⟨c :: params, d, by simp [hrest], ?_, hd'⟩
      intro x hx
      rcases List.mem_cons.mp hx with rfl | hx
      · exact hd
      · exact hparams x hx
    · rw [if_neg hd] at h
      by_cases ha : c.isAlpha = true
      · rw [if_pos ha] at h
        simp only [Option.some.injEq] at h
        exact ⟨[], c, by simp [h], by simp, ha⟩
      · rw [if_neg ha] at h
        simp at h

theorem matchEsc_decomp :
    ∀ l r, matchEsc l = some r → ∃ m, l = m ++ r ∧ IsCtrlSeq m := by
  intro l r h
  match l with
  | [] => simp [matchEsc] at h
  | [e] => simp [matchEsc] at h
  | e :: b :: rest =>
    simp only [matchEsc] at h
    by_cases hg : (e == esc && b == '[') = true
    · rw [if_pos hg] at h
      simp only [Bool.and_eq_true, beq_iff_eq] at hg
      obtain ⟨params, c, hrest, hparams, hc⟩ := matchTail_decomp rest r h
      refine ⟨esc :: '[' :: (params ++ [c]), ?_, params, c, rfl, hparams, hc⟩
      simp [hg.1, hg.2, hrest]
    · rw [if_neg hg] at h
      simp at h

theorem pieces_nil : pieces [] = [] := rfl

theorem pieces_cons (p : List Char × List Char) (ps : List (List Char × List Char)) :
    pieces (p :: ps) = p.1 ++ p.2 ++ pieces ps := by
  simp [pieces, List.append_assoc]

/-- Leftmost-scan decomposition of a sanitizer pass: the input splits into
alternating kept segments and removed control sequences, the output is the
concatenation of the kept segments, and no match begins at a kept character
(`ScanFaithful`), so every matching substring the scan reaches is removed. -/
theorem sanitize_decomp :
    ∀ (n : Nat) (l : List Char), l.length ≤ n →
      ∃ ps : List (List Char × List Char),
        l = pieces ps ∧
        sanitize l = (ps.map Prod.fst).flatten ∧
        (∀ p ∈ ps, p.2 = [] ∨ IsCtrlSeq p.2) ∧
        ScanFaithful ps := by
  intro n
  induction n with
  | zero =>
    intro l hl
    have : l = [] := List.length_eq_zero.mp (Nat.le_zero.mp hl)
    subst this
    exact ⟨[], by simp [pieces_nil], by simp [sanitize_nil], by simp, trivial⟩
  | succ n ih =>
    intro l hl
    match l with
    | [] => exact ⟨[], by simp [pieces_nil], by simp [sanitize_nil], by simp, trivial⟩
    | c :: rest =>
      match hm : matchEsc (c :: rest) with
      | some r =>
        have hr := matchEsc_length _ _ hm
        simp only [List.length_cons] at hl hr
        obtain ⟨m, hsplit, hctrl⟩ := matchEsc_decomp _ _ hm
        obtain ⟨ps, hps₁, hps₂, hps₃, hps₄⟩ := ih r (by omega)
        refine ⟨([], m) :: ps, ?_, ?_, ?_, ?_⟩
        · rw [pieces_cons]
          simp only [List.nil_append]
          rw [← hps₁, ← hsplit]
        · rw [sanitize_cons_match hm]
          simpa using hps₂
        · intro p hp
          rcases List.mem_cons.mp hp with rfl | hp
          · exact Or.inr hctrl
          · exact hps₃ p hp
        · refine ⟨?_, hps₄⟩
          intro s₁ s₂ hk hne
          exact absurd (List.append_eq_nil.mp hk.symm).2 hne
      | none =>
        simp only [List.length_cons] at hl
        obtain ⟨ps, hps₁, hps₂, hps₃, hps₄⟩ := ih rest (by omega)
        refine ⟨([c], []) :: ps, ?_, ?_, ?_, ?_⟩
        · rw [pieces_cons]
          simp only [List.append_nil, List.singleton_append]
          rw [← hps₁]
        · rw [sanitize_cons_nomatch hm]
          simp only [List.map_cons, List.flatten_cons, List.singleton_append]
          rw [hps₂]
        · intro p hp
          rcases List.mem_cons.mp hp with rfl | hp
          · exact Or.inl rfl
          · exact hps₃ p hp
        · refine ⟨?_, hps₄⟩
          intro s₁ s₂ hk hne
          match s₁ with
          | [] =>
            simp only [List.nil_append] at hk
            rw [← hk]
            simp only [List.append_nil, List.singleton_append]
            rw [← hps₁]
            exact hm
          | x :: s₁' =>
            simp only [List.cons_append, List.cons.injEq] at hk
            exact absurd (List.append_eq_nil.mp hk.2.symm).2 hne

/-- If no position of the text starts a control-sequence match, a sanitizer
pass keeps every character. -/
theorem sanitize_of_no_match :
    ∀ l : List Char, hasCtrlMatch l = false → sanitize l = l := by
  intro l
  induction l with
  | nil => intro _; rfl
  | cons c rest ih =>
    intro h
    simp only [hasCtrlMatch, Bool.or_eq_false_iff] at h
    have hn : matchEsc (c :: rest) = none := by
      cases hmc : matchEsc (c :: rest) with
      | none => rfl
      | some r => rw [hmc] at h; simp at h
    rw [sanitize_cons_nomatch hn, ih h.2]

theorem leadingSpaces_eq_takeWhile (l : List Char) :
    leadingSpaces l = (l.takeWhile (fun c => c == ' ')).length := by
  have h := List.takeWhile_append_dropWhile (p := fun c => c == ' ') (l := l)
  have hlen : (l.takeWhile (fun c => c == ' ')).length +
      (l.dropWhile (fun c => c == ' ')).length = l.length := by
    rw [← List.length_append, h]
  simp only [leadingSpaces, lstripSpace]
  omega

theorem leadingSpaces_cons_space (l : List Char) :
    leadingSpaces (' ' :: l) = leadingSpaces l + 1 := by
  rw [leadingSpaces_eq_takeWhile, leadingSpaces_eq_takeWhile]
  simp [List.takeWhile_cons]

theorem leadingSpaces_cons_nonspace {c : Char} (l : List Char) (hc : c ≠ ' ') :
    leadingSpaces (c :: l) = 0 := by
  rw [leadingSpaces_eq_takeWhile]
  simp [List.takeWhile_cons, hc]

theorem dropWhile_head_not {p : Char → Bool} :
    ∀ (l : List Char) (c : Char) (cs : List Char),
      l.dropWhile p = c :: cs → p c = false := by
  intro l
  induction l with
  | nil => intro c cs h; simp at h
  | cons a rest ih =>
    intro c cs h
    rw [List.dropWhile_cons] at h
    by_cases hp : p a = true
    · rw [if_pos hp] at h
      exact ih c cs h
    · rw [if_neg hp] at h
      simp only [List.cons.injEq] at h
      rw [← h.1]
      exact Bool.eq_false_iff.mpr hp

theorem dropWhile_getLast? {p : Char → Bool} :
    ∀ l : List Char, l.dropWhile p ≠ [] →
      (l.dropWhile p).getLast? = l.getLast? := by
  intro l
  induction l with
  | nil => intro h; simp at h
  | cons a rest ih =>
    intro h
    rw [List.dropWhile_cons]
    by_cases hp : p a = true
    · rw [if_pos hp]
      rw [List.dropWhile_cons, if_pos hp] at h
      have hrest : rest ≠ [] := by
        intro hr; rw [hr] at h; simp at h
      rw [ih h]
      match rest, hrest with
      | b :: rest', _ => rw [List.getLast?_cons_cons]
    · rw [if_neg hp]

/-- `pyStrip` keeps a contiguous middle segment of the line: whitespace-only
prefix and suffix removed, nothing else changed. -/
theorem pyStrip_decomp (l : List Char) :
    ∃ pre post, l = pre ++ pyStrip l ++ post ∧
      (∀ c ∈ pre, isPySpace c = true) ∧ (∀ c ∈ post, isPySpace c = true) := by
  have h1 := List.takeWhile_append_dropWhile (p := isPySpace) (l := l)
  set m := l.dropWhile isPySpace with hm
  have h2 := List.takeWhile_append_dropWhile (p := isPySpace) (l := m.reverse)
  set k := m.reverse.dropWhile isPySpace with hk
  refine ⟨l.takeWhile isPySpace, (m.reverse.takeWhile isPySpace).reverse, ?_, ?_, ?_⟩
  · have hmrev : m = k.reverse ++ (m.reverse.takeWhile isPySpace).reverse := by
      have := congrArg List.reverse h2
      simpa [List.reverse_append] using this.symm
    calc l = l.takeWhile isPySpace ++ m := h1.symm
    _ = l.takeWhile isPySpace ++ (k.reverse ++ (m.reverse.takeWhile isPySpace).reverse) := by
        rw [← hmrev]
    _ = l.takeWhile isPySpace ++ pyStrip l ++ (m.reverse.takeWhile isPySpace).reverse := by
        simp [pyStrip, ← hm, ← hk, List.append_assoc]
  · intro c hc
    exact List.mem_takeWhile_imp hc
  · intro c hc
    exact List.mem_takeWhile_imp (List.mem_reverse.mp hc)

/-- A nonempty `pyStrip` result starts and ends with non-whitespace. -/
theorem pyStrip_ends (l : List Char) (c : Char) (cs : List Char)
    (h : pyStrip l = c :: cs) :
    isPySpace c = false ∧
      isPySpace ((c :: cs).getLast (List.cons_ne_nil c cs)) = false := by
  have hkrev : ((l.dropWhile isPySpace).reverse.dropWhile isPySpace).reverse = c :: cs := h
  have hkne : (l.dropWhile isPySpace).reverse.dropWhile isPySpace ≠ [] := by
    intro h0
    rw [h0] at hkrev
    simp at hkrev
  constructor
  · -- head of the result is the last kept element of the reversed middle,
    -- i.e. the head `dropWhile` stopped at in `l`
    have hhead : ((l.dropWhile isPySpace).reverse.dropWhile isPySpace).reverse.head? =
        some c := by rw [hkrev]; rfl
    rw [List.head?_reverse, dropWhile_getLast? _ hkne, List.getLast?_reverse] at hhead
    match hmc : l.dropWhile isPySpace with
    | [] => rw [hmc] at hhead; simp at hhead
    | d :: ms =>
      rw [hmc] at hhead
      simp only [List.head?_cons, Option.some.injEq] at hhead
      exact hhead ▸ dropWhile_head_not l d ms hmc
  · -- last of the result is the head the second `dropWhile` stopped at
    have hlast : ((l.dropWhile isPySpace).reverse.dropWhile isPySpace).reverse.getLast? =
        some ((c :: cs).getLast (List.cons_ne_nil c cs)) := by
      rw [hkrev]
      exact List.getLast?_eq_getLast _ _
    rw [List.getLast?_reverse] at hlast
    match hkc : (l.dropWhile isPySpace).reverse.dropWhile isPySpace with
    | [] => exact absurd hkc hkne
    | d :: ks =>
      rw [hkc] at hlast
      simp only [List.head?_cons, Option.some.injEq] at hlast
      exact hlast ▸ dropWhile_head_not (l.dropWhile isPySpace).reverse d ks hkc

/-- C1: For every input whose ContinuationSet has at least 2 records,
`analyze_terminal_output` returns TRUE iff at least one record's leading
spaces strictly exceed its immediate predecessor's; the leading-space
sequences `[4, 6, 8]`, `[4, 6, 4]` and `[4, 2, 4]` yield verdict = problem,
`[4, 4, 4]` yields verdict = clean, and inconsistent-but-non-increasing
deviations never alone make the verdict TRUE. -/
theorem C1_verdict_iff_growth_pair :
    (∀ output : List Char, 2 ≤ (continuationSet output).length →
      (analyze_terminal_output output = true ↔
        ∃ i a b, ((continuationSet output).map MatchRecord.leading_spaces)[i]? = some a ∧
          ((continuationSet output).map MatchRecord.leading_spaces)[i + 1]? = some b ∧
          a < b)) ∧
    (continuationSet seqInput468).map MatchRecord.leading_spaces = [4, 6, 8] ∧
    analyze_terminal_output seqInput468 = true ∧
    (continuationSet seqInput464).map MatchRecord.leading_spaces = [4, 6, 4] ∧
    analyze_terminal_output seqInput464 = true ∧
    (continuationSet seqInput424).map MatchRecord.leading_spaces = [4, 2, 4] ∧
    analyze_terminal_output seqInput424 = true ∧
    (continuationSet seqInput444).map MatchRecord.leading_spaces = [4, 4, 4] ∧
    analyze_terminal_output seqInput444 = false := by
  refine ⟨?_, by decide, by decide, by decide, by decide, by decide, by decide,
    by decide, by decide⟩
  intro output _
  rw [analyze_eq_hasAdjIncrease]
  exact hasAdjIncrease_iff_get _

theorem C1_verdict_iff_growth_pair_witness :
    2 ≤ (continuationSet seqInput468).length ∧
      (analyze_terminal_output seqInput468 = true ↔
        ∃ i a b, ((continuationSet seqInput468).map MatchRecord.leading_spaces)[i]? = some a ∧
          ((continuationSet seqInput468).map MatchRecord.leading_spaces)[i + 1]? = some b ∧
          a < b) :=
  ⟨by decide, C1_verdict_iff_growth_pair.1 seqInput468 (by decide)⟩

/-- C2: The process exits with status 1 iff a cumulative-growth defect was
found and 0 otherwise (also in the no-token and insufficient-data cases);
on the §8 end-to-end input the ContinuationSet leading-space sequence is
`[4, 6, 8]`, the verdict is problem, and the exit status is 1. -/
theorem C2_exit_status :
    (∀ output : List Char,
      (mainExit output = 1 ↔ analyze_terminal_output output = true) ∧
      (mainExit output = 0 ↔ analyze_terminal_output output = false)) ∧
    (continuationSet endToEndInput).map MatchRecord.leading_spaces = [4, 6, 8] ∧
    analyze_terminal_output endToEndInput = true ∧
    mainExit endToEndInput = 1 ∧
    mainExit "no tokens here".data = 0 ∧
    mainExit singleLineInput = 0 := by
  refine ⟨?_, by decide, by decide, by decide, by decide, by decide⟩
  intro output
  by_cases h : analyze_terminal_output output = true
  · simp [mainExit, h]
  · simp only [Bool.not_eq_true] at h
    simp [mainExit, h]

/-- C3: The judge's per-record classification uses two baselines: a record
`i > 0` is flagged as growth exactly when its leading spaces exceed its
immediate predecessor's, and only otherwise is it flagged as inconsistent
exactly when its leading spaces differ from the FIRST record's; a record
exceeding its predecessor is classified growth regardless of the comparison
with the first record's value. -/
theorem C3_two_baselines :
    ∀ (first : MatchRecord) (rest : List MatchRecord) (i : Nat)
      (pr cur : MatchRecord),
      (first :: rest)[i]? = some pr →
      (first :: rest)[i + 1]? = some cur →
      ((judge (first :: rest)).1[i + 1]? = some Classification.growth ↔
        pr.leading_spaces < cur.leading_spaces) ∧
      ((judge (first :: rest)).1[i + 1]? = some Classification.inconsistent ↔
        ¬ pr.leading_spaces < cur.leading_spaces ∧
          cur.leading_spaces ≠ first.leading_spaces) ∧
      ((judge (first :: rest)).1[i + 1]? = some Classification.consistent ↔
        ¬ pr.leading_spaces < cur.leading_spaces ∧
          cur.leading_spaces = first.leading_spaces) := by
  intro first rest i pr cur hpr hcur
  simp only [List.getElem?_cons_succ] at hcur
  obtain ⟨pr', hpr', hcls⟩ := judgeStep_classes_get first.leading_spaces rest first i cur hcur
  rw [hpr] at hpr'
  simp only [Option.some.injEq] at hpr'
  subst hpr'
  have hjudge : (judge (first :: rest)).1[i + 1]? =
      (judgeStep first.leading_spaces first rest).1[i]? := by
    simp [judge]
  rw [hjudge, hcls]
  by_cases hgt : pr.leading_spaces < cur.leading_spaces
  · rw [if_pos hgt]
    refine ⟨by simp [hgt], by simp [hgt], by simp [hgt]⟩
  · rw [if_neg hgt]
    by_cases hne : cur.leading_spaces ≠ first.leading_spaces
    · rw [if_pos hne]
      exact ⟨by simp [hgt, hne], by simp [hgt, hne], by simp [hgt, hne]⟩
    · rw [if_neg hne]
      simp only [ne_eq, Decidable.not_not] at hne
      rw [hne] at hgt
      exact ⟨by simp [hgt, hne], by simp [hgt, hne], by simp [hgt, hne]⟩

theorem C3_two_baselines_witness :
    ((judge [c3recA, c3recB]).1[0 + 1]? = some Classification.growth ↔
      c3recA.leading_spaces < c3recB.leading_spaces) ∧
    ((judge [c3recA, c3recB]).1[0 + 1]? = some Classification.inconsistent ↔
      ¬ c3recA.leading_spaces < c3recB.leading_spaces ∧
        c3recB.leading_spaces ≠ c3recA.leading_spaces) ∧
    ((judge [c3recA, c3recB]).1[0 + 1]? = some Classification.consistent ↔
      ¬ c3recA.leading_spaces < c3recB.leading_spaces ∧
        c3recB.leading_spaces = c3recA.leading_spaces) :=
  C3_two_baselines c3recA [c3recB] 0 c3recA c3recB (by decide) (by decide)

/-- C4: A line whose trimmed content contains the marker glyph `✦` is
excluded from the ContinuationSet even if it matches a recognition token:
no continuation record's content contains the glyph, the line
`  aaaa ✦ more` matches a token yet yields no continuation record, and an
8-space marker line between two 4-space token lines leaves the verdict
clean. -/
theorem C4_marker_exclusion :
    (∀ (output : List Char) (r : MatchRecord), r ∈ continuationSet output →
      isSubstring ['✦'] r.content = false) ∧
    matchesToken "  aaaa ✦ more".data = true ∧
    (∃ r ∈ testLines (splitNl (sanitize markerTokenInput)),
      r.content = "aaaa ✦ more".data) ∧
    (∀ r ∈ continuationSet markerTokenInput, r.content ≠ "aaaa ✦ more".data) ∧
    (continuationSet markerGrowthInput).map MatchRecord.leading_spaces = [4, 4] ∧
    analyze_terminal_output markerGrowthInput = false := by
  refine ⟨?_, by decide, ⟨⟨1, "aaaa ✦ more".data, 2, "  aaaa ✦ more".data⟩,
    by decide, rfl⟩, by decide, by decide, by decide⟩
  intro output r hr
  have := List.of_mem_filter hr
  simpa using this

theorem C4_marker_exclusion_witness :
    isSubstring ['✦'] (MatchRecord.mk 2 "aaaa one".data 4 "    aaaa one".data).content
      = false :=
  C4_marker_exclusion.1 markerTokenInput
    (MatchRecord.mk 2 "aaaa one".data 4 "    aaaa one".data) (by decide)

/-- C5: With no token-matching line, or with fewer than 2 continuation
records, the verdict is always clean regardless of leading-space values. -/
theorem C5_insufficient_data_clean :
    ∀ output : List Char,
      testLines (splitNl (sanitize output)) = [] ∨
        (continuationSet output).length < 2 →
      analyze_terminal_output output = false := by
  intro output h
  rw [analyze_eq_hasAdjIncrease]
  apply hasAdjIncrease_short
  simp only [List.length_map]
  rcases h with h | h
  · simp [continuationSet, h, continuationOf]
  · exact h

theorem C5_insufficient_data_clean_witness :
    (testLines (splitNl (sanitize "hello world".data)) = [] ∨
      (continuationSet "hello world".data).length < 2) ∧
    analyze_terminal_output "hello world".data = false :=
  ⟨Or.inl (by decide), C5_insufficient_data_clean "hello world".data (Or.inl (by decide))⟩

/-- C6 counterexample: the Sanitizer is NOT idempotent.  On
`\x1b[` ++ `\x1b[0m` ++ `0m`, one pass removes the inner `\x1b[0m` and
splices the surrounding characters into a new control sequence `\x1b[0m`,
which a second pass removes. -/
theorem C6_not_idempotent_counterexample :
    sanitize splicedInput = ['\x1b', '[', '0', 'm'] ∧
    sanitize (sanitize splicedInput) ≠ sanitize splicedInput := by
  constructor
  · decide
  · decide

/-- C6 (amended): if the sanitized output contains no remaining substring
matching the control-sequence pattern, applying the Sanitizer a second time
yields the same text; the unconditional claim fails because a single pass
can splice a new control sequence out of the surrounding characters. -/
theorem C6_idempotent_when_no_match_remains :
    ∀ output : List Char, hasCtrlMatch (sanitize output) = false →
      sanitize (sanitize output) = sanitize output := by
  intro output h
  exact sanitize_of_no_match _ h

theorem C6_idempotent_when_no_match_remains_witness :
    hasCtrlMatch (sanitize "\x1b[32maaaa\x1b[0m".data) = false ∧
      sanitize (sanitize "\x1b[32maaaa\x1b[0m".data) =
        sanitize "\x1b[32maaaa\x1b[0m".data :=
  ⟨by decide, C6_idempotent_when_no_match_remains "\x1b[32maaaa\x1b[0m".data (by decide)⟩

/-- C7: A sanitizer pass removes exactly the substrings matching "escape
character, `[`, zero or more digits/semicolons, one letter" and leaves every
other character unchanged: the input decomposes into alternating kept
segments and removed control sequences whose kept parts concatenate to the
output, no match begins at any kept character (`ScanFaithful` — so every
matching substring the left-to-right scan reaches is removed, ruling out
under-removing decompositions such as the identity), and an input with no
such sequence is returned unchanged. -/
theorem C7_sanitizer_removes_pattern :
    ∀ l : List Char,
      (∃ ps : List (List Char × List Char),
        l = pieces ps ∧
        sanitize l = (ps.map Prod.fst).flatten ∧
        (∀ p ∈ ps, p.2 = [] ∨ IsCtrlSeq p.2) ∧
        ScanFaithful ps) ∧
      (hasCtrlMatch l = false → sanitize l = l) := by
  intro l
  exact ⟨sanitize_decomp l.length l (Nat.le_refl _), sanitize_of_no_match l⟩

theorem C7_sanitizer_removes_pattern_witness :
    (∃ ps : List (List Char × List Char),
      "\x1b[32maaaa\x1b[0m bb".data = pieces ps ∧
      sanitize "\x1b[32maaaa\x1b[0m bb".data = (ps.map Prod.fst).flatten ∧
      (∀ p ∈ ps, p.2 = [] ∨ IsCtrlSeq p.2) ∧
      ScanFaithful ps) ∧
    sanitize "\x1b[32maaaa\x1b[0m bb".data = "aaaa bb".data ∧
    sanitize "a✦\t b".data = "a✦\t b".data :=
  ⟨(C7_sanitizer_removes_pattern "\x1b[32maaaa\x1b[0m bb".data).1,
    by decide,
    (C7_sanitizer_removes_pattern "a✦\t b".data).2 (by decide)⟩

/-- C8: MatchRecord line numbers are strictly increasing in textual order,
each record's line number indexes exactly its underlying line in the
sanitized text, and the ContinuationSet is an order-inheriting subsequence
of the MatchRecords. -/
theorem C8_order_preservation :
    ∀ output : List Char,
      List.Pairwise (fun a b => a.line_num < b.line_num)
        (testLines (splitNl (sanitize output))) ∧
      List.Sublist (continuationSet output) (testLines (splitNl (sanitize output))) ∧
      List.Pairwise (fun a b => a.line_num < b.line_num) (continuationSet output) ∧
      ∀ r ∈ testLines (splitNl (sanitize output)),
        (splitNl (sanitize output))[r.line_num - 1]? = some r.raw_line ∧
        matchesToken r.raw_line = true := by
  intro output
  have hpair := locate_pairwise (splitNl (sanitize output)) 0
  have hsub : List.Sublist (continuationSet output)
      (testLines (splitNl (sanitize output))) :=
    List.filter_sublist _
  refine ⟨hpair, hsub, List.Pairwise.sublist hsub hpair, ?_⟩
  intro r hr
  obtain ⟨line, hline, hmatch, hrec⟩ := locate_get (splitNl (sanitize output)) 0 r hr
  have hraw : r.raw_line = line := by rw [hrec]; rfl
  rw [hraw]
  constructor
  · simpa using hline
  · exact hmatch

theorem C8_order_preservation_witness :
    List.Pairwise (fun a b => a.line_num < b.line_num)
      (testLines (splitNl (sanitize endToEndInput))) ∧
    ((splitNl (sanitize endToEndInput))[(MatchRecord.mk 2 "aaaa first".data 4
        "    aaaa first".data).line_num - 1]? =
      some (MatchRecord.mk 2 "aaaa first".data 4 "    aaaa first".data).raw_line ∧
      matchesToken (MatchRecord.mk 2 "aaaa first".data 4
        "    aaaa first".data).raw_line = true) :=
  ⟨(C8_order_preservation endToEndInput).1,
    (C8_order_preservation endToEndInput).2.2.2
      (MatchRecord.mk 2 "aaaa first".data 4 "    aaaa first".data) (by decide)⟩

/-- C9: Token matching is case-sensitive substring containment of one of
`aaaa`, `bbbb`, `cccc`, `dddd`; `leading_spaces` counts only leading `' '`
characters (a tab is not counted and stops the count); `content` is the line
with surrounding whitespace removed; and each record stores the 1-based line
number of its line. -/
theorem C9_locator_fields :
    (∀ line : List Char, matchesToken line = true ↔
      ∃ t ∈ tokens, ∃ pre post, line = pre ++ t ++ post) ∧
    matchesToken "AAAA BBBB CCCC DDDD".data = false ∧
    (∀ l : List Char, leadingSpaces l = (l.takeWhile (fun c => c == ' ')).length) ∧
    (∀ l : List Char, leadingSpaces ('\t' :: l) = 0) ∧
    (∀ (c : Char) (l : List Char), c ≠ ' ' → leadingSpaces (c :: l) = 0) ∧
    (∀ l : List Char, leadingSpaces (' ' :: l) = leadingSpaces l + 1) ∧
    leadingSpaces "  \t  aaaa".data = 2 ∧
    (∀ l : List Char, ∃ pre post, l = pre ++ pyStrip l ++ post ∧
      (∀ c ∈ pre, isPySpace c = true) ∧ (∀ c ∈ post, isPySpace c = true)) ∧
    (∀ (l : List Char) (c : Char) (cs : List Char), pyStrip l = c :: cs →
      isPySpace c = false ∧
        isPySpace ((c :: cs).getLast (List.cons_ne_nil c cs)) = false) ∧
    (∀ (ls : List (List Char)) (r : MatchRecord), r ∈ testLines ls →
      ls[r.line_num - 1]? = some r.raw_line ∧
        r.content = pyStrip r.raw_line ∧
        r.leading_spaces = leadingSpaces r.raw_line ∧
        matchesToken r.raw_line = true) := by
  refine ⟨matchesToken_iff, by decide, leadingSpaces_eq_takeWhile, ?_, ?_, ?_,
    by decide, pyStrip_decomp, pyStrip_ends, ?_⟩
  · intro l
    exact leadingSpaces_cons_nonspace l (by decide)
  · intro c l hc
    exact leadingSpaces_cons_nonspace l hc
  · exact leadingSpaces_cons_space
  · intro ls r hr
    obtain ⟨line, hline, hmatch, hrec⟩ := locate_get ls 0 r hr
    have hraw : r.raw_line = line := by rw [hrec]; rfl
    have hcontent : r.content = pyStrip line := by rw [hrec]; rfl
    have hlead : r.leading_spaces = leadingSpaces line := by rw [hrec]; rfl
    rw [hraw, hcontent, hlead]
    refine ⟨by simpa using hline, rfl, rfl, hmatch⟩

theorem C9_locator_fields_witness :
    (matchesToken "      bbbb second".data = true ↔
      ∃ t ∈ tokens, ∃ pre post, "      bbbb second".data = pre ++ t ++ post) ∧
    leadingSpaces "\t    x".data = 0 ∧
    leadingSpaces ('x' :: " y".data) = 0 ∧
    (isPySpace 'b' = false ∧
      isPySpace (('b' :: ([] : List Char)).getLast (List.cons_ne_nil 'b' [])) = false) ∧
    ((splitNl (sanitize "      bbbb second".data))[(MatchRecord.mk 1
        "bbbb second".data 6 "      bbbb second".data).line_num - 1]? =
      some (MatchRecord.mk 1 "bbbb second".data 6
        "      bbbb second".data).raw_line ∧
      (MatchRecord.mk 1 "bbbb second".data 6 "      bbbb second".data).content =
        pyStrip (MatchRecord.mk 1 "bbbb second".data 6
          "      bbbb second".data).raw_line ∧
      (MatchRecord.mk 1 "bbbb second".data 6
          "      bbbb second".data).leading_spaces =
        leadingSpaces (MatchRecord.mk 1 "bbbb second".data 6
          "      bbbb second".data).raw_line ∧
      matchesToken (MatchRecord.mk 1 "bbbb second".data 6
        "      bbbb second".data).raw_line = true) :=
  ⟨C9_locator_fields.1 "      bbbb second".data,
    C9_locator_fields.2.2.2.1 "    x".data,
    C9_locator_fields.2.2.2.2.1 'x' " y".data (by decide),
    C9_locator_fields.2.2.2.2.2.2.2.2.1 " b ".data 'b' [] (by decide),
    C9_locator_fields.2.2.2.2.2.2.2.2.2 (splitNl (sanitize "      bbbb second".data))
      (MatchRecord.mk 1 "bbbb second".data 6 "      bbbb second".data) (by decide)⟩

/-- C10: The verdict depends only on the ContinuationSet leading-space
sequence: inputs with pointwise-equal leading-space sequences get the same
boolean, regardless of textual content, line numbers, or excluded marker
lines. -/
theorem C10_verdict_depends_only_on_leading :
    ∀ out₁ out₂ : List Char,
      (continuationSet out₁).map MatchRecord.leading_spaces =
        (continuationSet out₂).map MatchRecord.leading_spaces →
      analyze_terminal_output out₁ = analyze_terminal_output out₂ := by
  intro out₁ out₂ h
  rw [analyze_eq_hasAdjIncrease, analyze_eq_hasAdjIncrease, h]

theorem C10_verdict_depends_only_on_leading_witness :
    (continuationSet c10InputA).map MatchRecord.leading_spaces =
      (continuationSet c10InputB).map MatchRecord.leading_spaces ∧
    analyze_terminal_output c10InputA = analyze_terminal_output c10InputB :=
  ⟨by decide, C10_verdict_depends_only_on_leading c10InputA c10InputB (by decide)⟩

end AnalyzeIndentation
